import Mathlib

/-!
Verification development for the deep-learning course-content snippets.

The main subject is the top-K Monte-Carlo action selector
`MonteCarloBasedPlayer` of `W3D5_Tutorial1_Solution_9524e84f.py`, embedded
shallowly over exact rational arithmetic.  The external collaborators
(`game`, `nnet.predict`, `mc.simulate`) are opaque fixed-contract
dependencies and are carried as fields of the player record; the stochastic
simulator is modelled as a deterministic oracle indexed by the rollout
number, which records the outcomes of the independent simulation calls.
The final section embeds `ex_net_rsm` of
`W1D2_Tutorial3_Solution_322ede5f.py`.
-/

namespace MCSel

/-- Configuration dictionary `args`: the two fields read by
`MonteCarloBasedPlayer` are `args.numMCsims` (rollouts per candidate) and
`args.mc_topk` (the breadth `K`, stored as `self.K` in `__init__`).
`mc_topk` is an integer with no sign restriction, exactly as in the source,
which performs no validation on it. -/
structure Args where
  numMCsims : Nat
  mc_topk : Int

/-- Rules provider (the `game` collaborator, an `OthelloGame` in the source),
treated as an opaque dependency.  `getValidMoves` returns the 0/1 legality
mask as a numeric vector (the source multiplies the prior by it);
`getGameEnded` is nonzero exactly on terminal positions;
`getNextState b player a` advances one ply and returns the next board and the
next player; `getCanonicalForm` renormalises the perspective. -/
structure GameOps (β : Type) where
  getActionSize : Nat
  getValidMoves : β → List ℚ
  getNextState : β → Int → Nat → β × Int
  getCanonicalForm : β → Int → β
  getGameEnded : β → Int → ℚ

/-- The fields of `MonteCarloBasedPlayer` set at construction: the rules
provider, the predictor `nnet.predict` (returning the prior vector `Ps` and
a scalar value estimate `v`), the simulator `mc.simulate` (indexed by the
rollout number to record its stream of stochastic outcomes), and `args`.
The source also computes `s = game.stringRepresentation(board)` inside
`play` and never uses it; that dead assignment is omitted here. -/
structure MCPlayer (β : Type) where
  game : GameOps β
  predict : β → List ℚ × ℚ
  simulate : β → Nat → ℚ
  args : Args

/-- Line `Ps = Ps * valids` of `play`: elementwise masking of the prior by
the legality mask. -/
def maskPs (Ps valids : List ℚ) : List ℚ :=
  List.zipWith (fun a b => a * b) Ps valids

/-- Lines 45 to 54 of the solution file: if the masked probability mass
`sum_Ps_s` is positive, renormalise by it; otherwise (the logged
all-masked-to-zero anomaly) set `Ps = Ps + valids` and divide by the new
sum, which makes all valid moves equally probable. -/
def renormPs (Ps valids : List ℚ) : List ℚ :=
  let m := maskPs Ps valids
  if 0 < m.sum then m.map (fun x => x / m.sum)
  else
    let m2 := List.zipWith (fun a b => a + b) m valids
    m2.map (fun x => x / m2.sum)

/-- Line `num_valid_actions = np.shape(np.nonzero(Ps))[1]`: the number of
nonzero entries of `Ps` (which, note, is not in general the number of legal
actions: a legal action whose renormalised prior is zero is not counted). -/
def numValidActions (Ps : List ℚ) : Nat :=
  Ps.countP (fun x => decide (x ≠ 0))

/-- Deterministic refinement of `np.argpartition(Ps, kth)`: a stable
ascending argsort of the index range.  `argpartition` guarantees only that
the slice `[-m:]` of its output holds indices of the `m` largest entries,
with unspecified internal order; a full ascending sort satisfies that
guarantee for every `kth`, so the properties proved below about slices of
this list hold for any compliant `argpartition`. -/
def argsortAsc (Ps : List ℚ) : List Nat :=
  List.insertionSort (fun i j => Ps.getD i 0 ≤ Ps.getD j 0) (List.range Ps.length)

/-- Python slice `l[s:]` for an integer start `s`: a nonnegative start drops
`s` elements, a negative start counts from the end and is clamped at the
head of the list.  This is the slice `[-K:]` (or `[-num_valid_actions:]`)
applied to the argpartition result. -/
def pyTail {α : Type} (l : List α) (s : Int) : List α :=
  if 0 ≤ s then l.drop s.toNat else l.drop (l.length - (-s).toNat)

/-- Lines 58 to 61 of `play`: if fewer entries are nonzero than `K`, take
the slice `[-num_valid_actions:]`, otherwise the slice `[-K:]`, of the
argpartition of `Ps`. -/
def topKActions (Ps : List ℚ) (K : Int) : List Nat :=
  if (numValidActions Ps : Int) < K then
    pyTail (argsortAsc Ps) (-(numValidActions Ps : Int))
  else
    pyTail (argsortAsc Ps) (-K)

/-- The loop body of `play` for one candidate `action`: advance one ply with
`getNextState`, canonicalise, run `args.numMCsims` simulations from the
resulting state and average the outcomes (`np.mean` of the collected
values). -/
def rolloutValue {β : Type} (p : MCPlayer β) (b : β) (action : Nat) : ℚ :=
  let ns := p.game.getNextState b 1 action
  let nexts := p.game.getCanonicalForm ns.1 ns.2
  let values := (List.range p.args.numMCsims).map (fun r => p.simulate nexts r)
  values.sum / (values.length : ℚ)

/-- The `self.qsa` list as rebuilt by one call of `play`: starting from `[]`
the loop appends `(avg_value, action)` for each candidate in order, which is
a map over the candidate list. -/
def qsaList {β : Type} (p : MCPlayer β) (b : β) : List (ℚ × Nat) :=
  let Ps := renormPs (p.predict b).1 (p.game.getValidMoves b)
  (topKActions Ps p.args.mc_topk).map (fun action => (rolloutValue p b action, action))

/-- Lines 78 to 81 of `play`: `self.qsa.sort(key=lambda a: a[0])` (Python's
stable ascending sort on the first component, modelled by the stable
`insertionSort`), then `reverse()`, then `best_action = self.qsa[0][1]`.
Indexing an empty list would raise `IndexError`; that is the `none` case. -/
def MCPlayer.play {β : Type} (p : MCPlayer β) (b : β) : Option Nat :=
  let sorted := List.insertionSort (fun x y => x.1 ≤ y.1) (qsaList p b)
  (sorted.reverse.head?).map Prod.snd

/-- The mutable attribute state of a `MonteCarloBasedPlayer` object: the
fields bound in `__init__` (`core`) together with the scratch attribute
`self.qsa`, which does not exist until `play` first assigns it (`none`). -/
structure MCPlayerState (β : Type) where
  core : MCPlayer β
  qsa : Option (List (ℚ × Nat))

/-- State-passing form of `play`: the call returns the chosen action and the
object state after the call.  `play` assigns `self.qsa = []` on entry and
then only appends to it, so the post-state holds the freshly built list
regardless of the incoming `qsa`. -/
def playS {β : Type} (s : MCPlayerState β) (b : β) : Option Nat × MCPlayerState β :=
  (s.core.play b, { core := s.core, qsa := some (qsaList s.core b) })

/-- Method `getActionProb`: on a terminal position return the all-zero
vector `np.zeros(getActionSize())`; otherwise set entry `best_action` of the
all-zero vector to 1.  The unused `temp` parameter of the source is
omitted. -/
def MCPlayer.getActionProb {β : Type} (p : MCPlayer β) (b : β) : Option (List ℚ) :=
  if p.game.getGameEnded b 1 ≠ 0 then some (List.replicate p.game.getActionSize 0)
  else (p.play b).map (fun a => (List.replicate p.game.getActionSize 0).set a 1)

/-- Combine one element with the running selection over the elements after
it: keep the incumbent unless the new, earlier element is strictly
larger. -/
def lmStep (x : ℚ × Nat) : Option (ℚ × Nat) → Option (ℚ × Nat)
  | none => some x
  | some m => if m.1 < x.1 then some x else some m

/-- The element of `l` with maximal first component that occurs last in `l`
(`none` on the empty list).  The stable ascending sort of `play` followed by
`reverse` and `[0]` computes exactly this element (proved below). -/
def lastMax : List (ℚ × Nat) → Option (ℚ × Nat)
  | [] => none
  | x :: xs => lmStep x (lastMax xs)


/-! Concrete closed instances used by the witnesses and counterexamples
below.  The rules provider has four actions; board 0 has legality mask
`[1, 1, 0, 1]`, any other board `[1, 1, 1, 1]`; advancing one ply under
action `a` produces board `a`; board 99 is terminal. -/

/-- Concrete rules provider over boards coded as natural numbers. -/
def gameW : GameOps Nat :=
  { getActionSize := 4
    getValidMoves := fun b => if b = 0 then [1, 1, 0, 1] else [1, 1, 1, 1]
    getNextState := fun _ _ a => (a, -1)
    getCanonicalForm := fun s _ => s
    getGameEnded := fun b _ => if b = 99 then 1 else 0 }

/-- Concrete player with prior `[1/2, 1/2, 0, 0]`, constant-zero simulator
and `K = 3`. -/
def pw1 : MCPlayer Nat :=
  { game := gameW
    predict := fun _ => ([1 / 2, 1 / 2, 0, 0], 0)
    simulate := fun _ _ => 0
    args := { numMCsims := 1, mc_topk := 3 } }

/-- Concrete player with a uniform prior and a stub simulator that maps the
state reached under action `a` (which is the board coded `a`) to the fixed
outcome `a`. -/
def pw4 : MCPlayer Nat :=
  { game := gameW
    predict := fun _ => ([1 / 4, 1 / 4, 1 / 4, 1 / 4], 0)
    simulate := fun s _ => (s : ℚ)
    args := { numMCsims := 2, mc_topk := 3 } }

/-- Concrete player producing an exact rollout tie between its two
candidates (constant-zero simulator, `K = 2`). -/
def pTie : MCPlayer Nat :=
  { game := gameW
    predict := fun _ => ([1 / 2, 1 / 2, 0, 0], 0)
    simulate := fun _ _ => 0
    args := { numMCsims := 1, mc_topk := 2 } }

/-- Concrete player configured with the invalid breadth `K = 0`; its
simulator favours the state reached under the illegal action 2. -/
def pK0 : MCPlayer Nat :=
  { game := gameW
    predict := fun _ => ([1 / 2, 1 / 2, 0, 0], 0)
    simulate := fun s _ => if s = 2 then 10 else 0
    args := { numMCsims := 1, mc_topk := 0 } }

end MCSel

namespace RSM

/-- Function `ex_net_rsm` of `W1D2_Tutorial3_Solution_322ede5f.py`: the
representational similarity matrix `h @ h.T` of a 2-D tensor `h`. -/
def ex_net_rsm {m n : Nat} (h : Matrix (Fin m) (Fin n) ℚ) : Matrix (Fin m) (Fin m) ℚ :=
  h * h.transpose

end RSM

namespace MCSel

/-! Shape, sign and support lemmas for the masking and renormalisation
steps of `play`. -/

theorem length_maskPs (Ps valids : List ℚ) :
    (maskPs Ps valids).length = min Ps.length valids.length := by
  simp [maskPs]

theorem getElem_maskPs (Ps valids : List ℚ) (i : Nat)
    (h1 : i < Ps.length) (h2 : i < valids.length)
    (hm : i < (maskPs Ps valids).length) :
    (maskPs Ps valids)[i] = Ps[i] * valids[i] :=
  List.getElem_zipWith ..

theorem maskPs_nonneg (Ps valids : List ℚ)
    (hP : ∀ x ∈ Ps, 0 ≤ x) (hv : ∀ x ∈ valids, x = 0 ∨ x = 1) :
    ∀ x ∈ maskPs Ps valids, 0 ≤ x := by
  intro x hx
  obtain ⟨i, hi, rfl⟩ := List.mem_iff_getElem.mp hx
  have h1 : i < Ps.length := by simp [maskPs] at hi; omega
  have h2 : i < valids.length := by simp [maskPs] at hi; omega
  rw [getElem_maskPs Ps valids i h1 h2 hi]
  have hp := hP _ (List.getElem_mem h1)
  rcases hv _ (List.getElem_mem h2) with h | h <;> rw [h] <;> simp [hp]

theorem maskPs_all_zero (Ps valids : List ℚ)
    (hP : ∀ x ∈ Ps, 0 ≤ x) (hv : ∀ x ∈ valids, x = 0 ∨ x = 1)
    (hsum : ¬ 0 < (maskPs Ps valids).sum) :
    ∀ x ∈ maskPs Ps valids, x = 0 := by
  intro x hx
  have hnn := maskPs_nonneg Ps valids hP hv
  have hx0 : 0 ≤ x := hnn x hx
  have hle : x ≤ (maskPs Ps valids).sum := List.single_le_sum hnn x hx
  have : (maskPs Ps valids).sum ≤ 0 := le_of_not_lt hsum
  linarith

theorem renormPs_zero_eq (Ps valids : List ℚ)
    (hP : ∀ x ∈ Ps, 0 ≤ x) (hv : ∀ x ∈ valids, x = 0 ∨ x = 1)
    (hlen : Ps.length = valids.length)
    (hsum : ¬ 0 < (maskPs Ps valids).sum) :
    renormPs Ps valids = valids.map (fun x => x / valids.sum) := by
  have hz := maskPs_all_zero Ps valids hP hv hsum
  have hmv : List.zipWith (fun a b => a + b) (maskPs Ps valids) valids = valids := by
    apply List.ext_getElem
    · simp [maskPs]; omega
    · intro i hi hi2
      have h1 : i < (maskPs Ps valids).length := by simp [maskPs] at hi ⊢; omega
      rw [List.getElem_zipWith]
      rw [hz _ (List.getElem_mem h1)]
      simp
  unfold renormPs
  rw [if_neg hsum]
  simp only [hmv]

theorem renormPs_pos_eq (Ps valids : List ℚ)
    (hsum : 0 < (maskPs Ps valids).sum) :
    renormPs Ps valids =
      (maskPs Ps valids).map (fun x => x / (maskPs Ps valids).sum) := by
  unfold renormPs
  rw [if_pos hsum]

theorem length_renormPs (Ps valids : List ℚ) (hlen : Ps.length = valids.length) :
    (renormPs Ps valids).length = valids.length := by
  by_cases hsum : 0 < (maskPs Ps valids).sum
  · rw [renormPs_pos_eq Ps valids hsum]
    simp [maskPs]
    omega
  · simp only [renormPs]
    rw [if_neg hsum]
    simp [maskPs]
    omega

theorem getD_map_div (l : List ℚ) (c : ℚ) (i : Nat) :
    (l.map (fun x => x / c)).getD i 0 = l.getD i 0 / c := by
  by_cases hi : i < l.length
  · rw [List.getD_eq_getElem _ _ (by simpa using hi), List.getD_eq_getElem _ _ hi,
      List.getElem_map]
  · rw [List.getD_eq_default _ _ (by simpa using le_of_not_lt hi),
      List.getD_eq_default _ _ (le_of_not_lt hi)]
    simp

theorem getD_maskPs (Ps valids : List ℚ) (hlen : Ps.length = valids.length) (i : Nat) :
    (maskPs Ps valids).getD i 0 = Ps.getD i 0 * valids.getD i 0 := by
  by_cases hi : i < valids.length
  · have h1 : i < Ps.length := by omega
    have hm : i < (maskPs Ps valids).length := by simp [maskPs]; omega
    rw [List.getD_eq_getElem _ _ hm, List.getD_eq_getElem _ _ h1,
      List.getD_eq_getElem _ _ hi]
    exact getElem_maskPs Ps valids i h1 hi hm
  · rw [List.getD_eq_default _ _ (by simp [maskPs]; omega),
      List.getD_eq_default _ _ (le_of_not_lt hi)]
    simp

theorem getD_renormPs_pos (Ps valids : List ℚ)
    (hsum : 0 < (maskPs Ps valids).sum) (i : Nat) :
    (renormPs Ps valids).getD i 0 =
      (maskPs Ps valids).getD i 0 / (maskPs Ps valids).sum := by
  rw [renormPs_pos_eq Ps valids hsum, getD_map_div]

theorem getD_renormPs_zero (Ps valids : List ℚ)
    (hP : ∀ x ∈ Ps, 0 ≤ x) (hv : ∀ x ∈ valids, x = 0 ∨ x = 1)
    (hlen : Ps.length = valids.length)
    (hsum : ¬ 0 < (maskPs Ps valids).sum) (i : Nat) :
    (renormPs Ps valids).getD i 0 = valids.getD i 0 / valids.sum := by
  rw [renormPs_zero_eq Ps valids hP hv hlen hsum, getD_map_div]

theorem sum_map_div (l : List ℚ) (c : ℚ) :
    (l.map (fun x => x / c)).sum = l.sum / c := by
  induction l with
  | nil => simp
  | cons a t ih => simp [ih, add_div]

theorem binary_sum_eq_countP (valids : List ℚ)
    (hv : ∀ x ∈ valids, x = 0 ∨ x = 1) :
    valids.sum = (valids.countP (fun x => decide (x ≠ 0)) : ℚ) := by
  induction valids with
  | nil => simp
  | cons a t ih =>
    have ha := hv a (by simp)
    have ht := ih (fun x hx => hv x (by simp [hx]))
    rcases ha with h | h <;>
      simp [List.countP_cons, h, ht, add_comm]

theorem renormPs_nonneg (Ps valids : List ℚ)
    (hP : ∀ x ∈ Ps, 0 ≤ x) (hv : ∀ x ∈ valids, x = 0 ∨ x = 1)
    (hlen : Ps.length = valids.length) :
    ∀ x ∈ renormPs Ps valids, 0 ≤ x := by
  intro x hx
  by_cases hsum : 0 < (maskPs Ps valids).sum
  · rw [renormPs_pos_eq Ps valids hsum] at hx
    obtain ⟨y, hy, rfl⟩ := List.mem_map.mp hx
    exact div_nonneg (maskPs_nonneg Ps valids hP hv y hy) (le_of_lt hsum)
  · rw [renormPs_zero_eq Ps valids hP hv hlen hsum] at hx
    obtain ⟨y, hy, rfl⟩ := List.mem_map.mp hx
    have hy0 : 0 ≤ y := by rcases hv y hy with h | h <;> simp [h]
    have hs0 : 0 ≤ valids.sum :=
      List.sum_nonneg (fun z hz => by rcases hv z hz with h | h <;> simp [h])
    exact div_nonneg hy0 hs0

theorem renormPs_support_legal (Ps valids : List ℚ)
    (hP : ∀ x ∈ Ps, 0 ≤ x) (hv : ∀ x ∈ valids, x = 0 ∨ x = 1)
    (hlen : Ps.length = valids.length) :
    ∀ i : Nat, (renormPs Ps valids).getD i 0 ≠ 0 → valids.getD i 0 = 1 := by
  intro i hne
  have hvne : valids.getD i 0 ≠ 0 := by
    intro h0
    apply hne
    by_cases hsum : 0 < (maskPs Ps valids).sum
    · rw [getD_renormPs_pos Ps valids hsum, getD_maskPs Ps valids hlen, h0]
      simp
    · rw [getD_renormPs_zero Ps valids hP hv hlen hsum, h0]
      simp
  by_cases hi : i < valids.length
  · rw [List.getD_eq_getElem _ _ hi] at hvne ⊢
    rcases hv _ (List.getElem_mem hi) with h0 | h1
    · exact absurd h0 hvne
    · exact h1
  · exact absurd (List.getD_eq_default _ _ (le_of_not_lt hi)) hvne

theorem renormPs_numValid_pos (Ps valids : List ℚ)
    (hP : ∀ x ∈ Ps, 0 ≤ x) (hv : ∀ x ∈ valids, x = 0 ∨ x = 1)
    (hlen : Ps.length = valids.length) (hone : (1 : ℚ) ∈ valids) :
    0 < numValidActions (renormPs Ps valids) := by
  unfold numValidActions
  rw [List.countP_pos_iff]
  by_cases hsum : 0 < (maskPs Ps valids).sum
  · have hex : ∃ y ∈ maskPs Ps valids, y ≠ 0 := by
      by_contra hc
      push_neg at hc
      rw [List.sum_eq_zero hc] at hsum
      exact lt_irrefl 0 hsum
    obtain ⟨y, hy, hyne⟩ := hex
    refine ⟨y / (maskPs Ps valids).sum, ?_, ?_⟩
    · rw [renormPs_pos_eq Ps valids hsum]
      exact List.mem_map.mpr ⟨y, hy, rfl⟩
    · simp only [decide_eq_true_eq]
      exact div_ne_zero hyne (ne_of_gt hsum)
  · have hs1 : (1 : ℚ) ≤ valids.sum := by
      apply List.single_le_sum _ _ hone
      intro z hz
      rcases hv z hz with h | h <;> simp [h]
    refine ⟨1 / valids.sum, ?_, ?_⟩
    · rw [renormPs_zero_eq Ps valids hP hv hlen hsum]
      exact List.mem_map.mpr ⟨1, hone, rfl⟩
    · simp only [decide_eq_true_eq]
      exact div_ne_zero one_ne_zero (by linarith)

/-! Lemmas about the stable argsort refinement of `argpartition` and about
the candidate slice taken on lines 56 to 61 of `play`. -/

theorem argsortAsc_perm (Ps : List ℚ) :
    (argsortAsc Ps).Perm (List.range Ps.length) :=
  List.perm_insertionSort _ _

theorem argsortAsc_length (Ps : List ℚ) : (argsortAsc Ps).length = Ps.length := by
  rw [(argsortAsc_perm Ps).length_eq, List.length_range]

theorem mem_argsortAsc (Ps : List ℚ) (i : Nat) :
    i ∈ argsortAsc Ps ↔ i < Ps.length := by
  rw [(argsortAsc_perm Ps).mem_iff, List.mem_range]

theorem argsortAsc_nodup (Ps : List ℚ) : (argsortAsc Ps).Nodup :=
  (argsortAsc_perm Ps).nodup_iff.mpr (List.nodup_range _)

theorem argsortAsc_sorted (Ps : List ℚ) :
    List.Sorted (fun i j => Ps.getD i 0 ≤ Ps.getD j 0) (argsortAsc Ps) := by
  haveI : IsTotal Nat (fun i j => Ps.getD i 0 ≤ Ps.getD j 0) :=
    ⟨fun a b => le_total _ _⟩
  haveI : IsTrans Nat (fun i j => Ps.getD i 0 ≤ Ps.getD j 0) :=
    ⟨fun a b c hab hbc => le_trans hab hbc⟩
  exact List.sorted_insertionSort _ _

theorem map_getD_range (Ps : List ℚ) :
    (List.range Ps.length).map (fun i => Ps.getD i 0) = Ps := by
  apply List.ext_getElem
  · simp
  · intro i h1 h2
    simp only [List.getElem_map, List.getElem_range]
    exact List.getD_eq_getElem Ps 0 h2

theorem countP_argsortAsc (Ps : List ℚ) :
    (argsortAsc Ps).countP (fun i => decide (Ps.getD i 0 ≠ 0)) = numValidActions Ps := by
  rw [(argsortAsc_perm Ps).countP_eq]
  unfold numValidActions
  conv_rhs => rw [← map_getD_range Ps]
  rw [List.countP_map]
  rfl

theorem getD_nonneg (Ps : List ℚ) (hP : ∀ x ∈ Ps, 0 ≤ x) (j : Nat) :
    0 ≤ Ps.getD j 0 := by
  by_cases hj : j < Ps.length
  · rw [List.getD_eq_getElem _ _ hj]
    exact hP _ (List.getElem_mem hj)
  · rw [List.getD_eq_default _ _ (le_of_not_lt hj)]

theorem drop_argsortAsc_nonzero (Ps : List ℚ) (m : Nat)
    (hP : ∀ x ∈ Ps, 0 ≤ x) (hm : m ≤ numValidActions Ps) :
    ∀ i ∈ (argsortAsc Ps).drop (Ps.length - m), Ps.getD i 0 ≠ 0 := by
  intro i hi hzero
  have hslen : (argsortAsc Ps).length = Ps.length := argsortAsc_length Ps
  have hnle : numValidActions Ps ≤ Ps.length := List.countP_le_length _
  obtain ⟨k, hk, hik⟩ := List.mem_iff_getElem.mp hi
  have hklt : k < m := by
    rw [List.length_drop, hslen] at hk
    omega
  have hjlt : Ps.length - m + k < (argsortAsc Ps).length := by omega
  have hgj : (argsortAsc Ps)[Ps.length - m + k] = i := by
    rw [← hik, List.getElem_drop]
  have hprefix : ∀ q, q < Ps.length - m + k + 1 → ∀ hq : q < (argsortAsc Ps).length,
      Ps.getD ((argsortAsc Ps)[q]) 0 = 0 := by
    intro q hq hqlt
    have hle : Ps.getD ((argsortAsc Ps)[q]) 0 ≤
        Ps.getD ((argsortAsc Ps)[Ps.length - m + k]) 0 := by
      rcases Nat.lt_or_ge q (Ps.length - m + k) with hlt | hge
      · exact (argsortAsc_sorted Ps).rel_get_of_lt
          (show (⟨q, hqlt⟩ : Fin (argsortAsc Ps).length) < ⟨Ps.length - m + k, hjlt⟩ from hlt)
      · have hqe : q = Ps.length - m + k := by omega
        subst hqe
        exact le_refl _
    rw [hgj, hzero] at hle
    exact le_antisymm hle (getD_nonneg Ps hP _)
  have htake : ((argsortAsc Ps).take (Ps.length - m + k + 1)).countP
      (fun j => decide (Ps.getD j 0 ≠ 0)) = 0 := by
    rw [List.countP_eq_zero]
    intro a ha
    obtain ⟨q, hq, hqa⟩ := List.mem_iff_getElem.mp ha
    have hq1 : q < Ps.length - m + k + 1 := by
      rw [List.length_take] at hq
      omega
    have hq2 : q < (argsortAsc Ps).length := by omega
    rw [List.getElem_take] at hqa
    subst hqa
    simp only [decide_eq_true_eq, Decidable.not_not]
    exact hprefix q hq1 hq2
  have hdrop : ((argsortAsc Ps).drop (Ps.length - m + k + 1)).countP
      (fun j => decide (Ps.getD j 0 ≠ 0)) ≤ Ps.length - (Ps.length - m + k + 1) := by
    refine le_trans (List.countP_le_length _) ?_
    rw [List.length_drop, hslen]
  have hsplit : numValidActions Ps =
      ((argsortAsc Ps).take (Ps.length - m + k + 1)).countP
        (fun j => decide (Ps.getD j 0 ≠ 0)) +
      ((argsortAsc Ps).drop (Ps.length - m + k + 1)).countP
        (fun j => decide (Ps.getD j 0 ≠ 0)) := by
    rw [← List.countP_append, List.take_append_drop, countP_argsortAsc]
  omega

theorem take_drop_argsortAsc_le (Ps : List ℚ) (t : Nat) :
    ∀ i ∈ (argsortAsc Ps).drop t, ∀ j ∈ (argsortAsc Ps).take t,
      Ps.getD j 0 ≤ Ps.getD i 0 := by
  intro i hi j hj
  obtain ⟨k, hk, hik⟩ := List.mem_iff_getElem.mp hi
  obtain ⟨q, hq, hjq⟩ := List.mem_iff_getElem.mp hj
  have hk2 : t + k < (argsortAsc Ps).length := by
    rw [List.length_drop] at hk
    omega
  have hq1 : q < t := by
    rw [List.length_take] at hq
    omega
  have hq2 : q < (argsortAsc Ps).length := by
    rw [List.length_take] at hq
    omega
  rw [List.getElem_drop] at hik
  rw [List.getElem_take] at hjq
  subst hik hjq
  exact (argsortAsc_sorted Ps).rel_get_of_lt
    (show (⟨q, hq2⟩ : Fin (argsortAsc Ps).length) < ⟨t + k, hk2⟩ by
      simp only [Fin.mk_lt_mk]
      omega)

theorem topKActions_eq_drop (Ps : List ℚ) (K : Int) (hK : 1 ≤ K)
    (hnva : 0 < numValidActions Ps) :
    topKActions Ps K =
      (argsortAsc Ps).drop (Ps.length - min K.toNat (numValidActions Ps)) := by
  have hlen := argsortAsc_length Ps
  unfold topKActions pyTail
  by_cases h : (numValidActions Ps : Int) < K
  · rw [if_pos h, if_neg (by omega : ¬ (0 : Int) ≤ -(numValidActions Ps : Int)), hlen]
    congr 1
    omega
  · rw [if_neg h, if_neg (by omega : ¬ (0 : Int) ≤ -K), hlen]
    congr 1
    omega

theorem topKActions_length (Ps : List ℚ) (K : Int) (hK : 1 ≤ K)
    (hnva : 0 < numValidActions Ps) :
    (topKActions Ps K).length = min K.toNat (numValidActions Ps) := by
  have hnle : numValidActions Ps ≤ Ps.length := List.countP_le_length _
  rw [topKActions_eq_drop Ps K hK hnva, List.length_drop, argsortAsc_length]
  omega

theorem topKActions_nonzero (Ps : List ℚ) (K : Int) (hK : 1 ≤ K)
    (hP : ∀ x ∈ Ps, 0 ≤ x) (hnva : 0 < numValidActions Ps) :
    ∀ i ∈ topKActions Ps K, Ps.getD i 0 ≠ 0 := by
  rw [topKActions_eq_drop Ps K hK hnva]
  exact drop_argsortAsc_nonzero Ps _ hP (by omega)

theorem topKActions_mem_lt (Ps : List ℚ) (K : Int) (hK : 1 ≤ K)
    (hnva : 0 < numValidActions Ps) :
    ∀ i ∈ topKActions Ps K, i < Ps.length := by
  rw [topKActions_eq_drop Ps K hK hnva]
  intro i hi
  exact (mem_argsortAsc Ps i).mp ((List.drop_sublist _ _).mem hi)

theorem topKActions_nodup (Ps : List ℚ) (K : Int) (hK : 1 ≤ K)
    (hnva : 0 < numValidActions Ps) :
    (topKActions Ps K).Nodup := by
  rw [topKActions_eq_drop Ps K hK hnva]
  exact (List.drop_sublist _ _).nodup (argsortAsc_nodup Ps)

theorem topKActions_dominant (Ps : List ℚ) (K : Int) (hK : 1 ≤ K)
    (hnva : 0 < numValidActions Ps) :
    ∀ i ∈ topKActions Ps K, ∀ j, j < Ps.length → j ∉ topKActions Ps K →
      Ps.getD j 0 ≤ Ps.getD i 0 := by
  rw [topKActions_eq_drop Ps K hK hnva]
  intro i hi j hjlt hjnot
  have hjmem : j ∈ argsortAsc Ps := (mem_argsortAsc Ps j).mpr hjlt
  have hsplit : j ∈ (argsortAsc Ps).take (Ps.length - min K.toNat (numValidActions Ps)) ∨
      j ∈ (argsortAsc Ps).drop (Ps.length - min K.toNat (numValidActions Ps)) := by
    rw [← List.mem_append, List.take_append_drop]
    exact hjmem
  rcases hsplit with h | h
  · exact take_drop_argsortAsc_le Ps _ i hi j h
  · exact absurd h hjnot

/-! The selection step of lines 78 to 81: a stable ascending sort on the
first component followed by `reverse` and `[0]` picks the element of
maximal first component that occurs last in the list. -/

theorem lmStep_isSome (x : ℚ × Nat) (o : Option (ℚ × Nat)) : (lmStep x o).isSome := by
  cases o with
  | none => rfl
  | some m =>
    simp only [lmStep]
    by_cases hlt : m.1 < x.1
    · rw [if_pos hlt]
      rfl
    · rw [if_neg hlt]
      rfl

theorem lastMax_eq_none_iff (l : List (ℚ × Nat)) : lastMax l = none ↔ l = [] := by
  cases l with
  | nil => simp [lastMax]
  | cons x xs =>
    simp only [lastMax]
    constructor
    · intro h
      have := lmStep_isSome x (lastMax xs)
      rw [h] at this
      cases this
    · intro h
      cases h

theorem lastMax_mem : ∀ (l : List (ℚ × Nat)) (m : ℚ × Nat), lastMax l = some m → m ∈ l
  | [], _, h => by cases h
  | x :: xs, m, h => by
    rw [lastMax] at h
    cases hx : lastMax xs with
    | none =>
      rw [hx] at h
      simp only [lmStep] at h
      injection h with h2
      subst h2
      exact List.mem_cons_self x xs
    | some m2 =>
      rw [hx] at h
      simp only [lmStep] at h
      by_cases hlt : m2.1 < x.1
      · rw [if_pos hlt] at h
        injection h with h2
        subst h2
        exact List.mem_cons_self x xs
      · rw [if_neg hlt] at h
        injection h with h2
        subst h2
        exact List.mem_cons_of_mem x (lastMax_mem xs m2 hx)

theorem lastMax_isMax : ∀ (l : List (ℚ × Nat)) (m : ℚ × Nat), lastMax l = some m →
    ∀ x ∈ l, x.1 ≤ m.1
  | [], _, h => by cases h
  | x :: xs, m, h => by
    rw [lastMax] at h
    intro y hy
    cases hx : lastMax xs with
    | none =>
      rw [hx] at h
      simp only [lmStep] at h
      injection h with h2
      subst h2
      rw [lastMax_eq_none_iff] at hx
      subst hx
      rcases List.mem_cons.mp hy with h3 | h3
      · exact le_of_eq (congrArg Prod.fst h3)
      · cases h3
    | some m2 =>
      rw [hx] at h
      simp only [lmStep] at h
      by_cases hlt : m2.1 < x.1
      · rw [if_pos hlt] at h
        injection h with h2
        subst h2
        rcases List.mem_cons.mp hy with h3 | h3
        · exact le_of_eq (congrArg Prod.fst h3)
        · exact le_of_lt (lt_of_le_of_lt (lastMax_isMax xs m2 hx y h3) hlt)
      · rw [if_neg hlt] at h
        injection h with h2
        subst h2
        rcases List.mem_cons.mp hy with h3 | h3
        · exact le_trans (le_of_eq (congrArg Prod.fst h3)) (le_of_not_lt hlt)
        · exact lastMax_isMax xs m2 hx y h3

theorem lastMax_split : ∀ (l : List (ℚ × Nat)) (m : ℚ × Nat), lastMax l = some m →
    ∃ l₁ l₂, l = l₁ ++ m :: l₂ ∧ ∀ x ∈ l₂, x.1 < m.1
  | [], _, h => by cases h
  | x :: xs, m, h => by
    rw [lastMax] at h
    cases hx : lastMax xs with
    | none =>
      rw [hx] at h
      simp only [lmStep] at h
      injection h with h2
      subst h2
      rw [lastMax_eq_none_iff] at hx
      subst hx
      exact ⟨[], [], rfl, by simp⟩
    | some m2 =>
      rw [hx] at h
      simp only [lmStep] at h
      by_cases hlt : m2.1 < x.1
      · rw [if_pos hlt] at h
        injection h with h2
        subst h2
        refine ⟨[], xs, rfl, ?_⟩
        intro y hy
        exact lt_of_le_of_lt (lastMax_isMax xs m2 hx y hy) hlt
      · rw [if_neg hlt] at h
        injection h with h2
        subst h2
        obtain ⟨l₁, l₂, heq, hlt2⟩ := lastMax_split xs m2 hx
        exact ⟨x :: l₁, l₂, by rw [heq]; rfl, hlt2⟩

theorem getLastQ_mem {α : Type} (l : List α) (a : α) (h : l.getLast? = some a) :
    a ∈ l := by
  have hx : a ∈ l.getLast? := by rw [Option.mem_def, h]
  obtain ⟨hne, hx2⟩ := List.mem_getLast?_eq_getLast hx
  rw [hx2]
  exact List.getLast_mem hne

theorem getLastQ_orderedInsert (x : ℚ × Nat) :
    ∀ s : List (ℚ × Nat), List.Sorted (fun a b => a.1 ≤ b.1) s →
      (List.orderedInsert (fun a b => a.1 ≤ b.1) x s).getLast? =
        lmStep x s.getLast? := by
  intro s
  induction s with
  | nil =>
    intro _
    simp [List.orderedInsert, lmStep]
  | cons h t ih =>
    intro hs
    by_cases hxh : x.1 ≤ h.1
    · rw [List.orderedInsert_of_le (fun a b : ℚ × Nat => a.1 ≤ b.1) t hxh,
        List.getLast?_cons_cons]
      cases hM : (h :: t).getLast? with
      | none => simp at hM
      | some M =>
        have hM_mem : M ∈ h :: t := getLastQ_mem _ _ hM
        have hhM : h.1 ≤ M.1 := by
          rcases List.mem_cons.mp hM_mem with rfl | hMt
          · exact le_refl _
          · exact List.rel_of_sorted_cons hs M hMt
        simp only [lmStep]
        rw [if_neg (not_lt.mpr (le_trans hxh hhM))]
    · have hins : List.orderedInsert (fun a b => a.1 ≤ b.1) x (h :: t) =
          h :: List.orderedInsert (fun a b => a.1 ≤ b.1) x t := by
        simp only [List.orderedInsert]
        rw [if_neg hxh]
      rw [hins]
      have htne : List.orderedInsert (fun a b => a.1 ≤ b.1) x t ≠ [] := by
        intro hc
        have hlc := congrArg List.length hc
        rw [List.orderedInsert_length] at hlc
        simp at hlc
      obtain ⟨z, zs, hzz⟩ := List.exists_cons_of_ne_nil htne
      rw [hzz, List.getLast?_cons_cons, ← hzz, ih hs.of_cons]
      cases t with
      | nil =>
        simp only [List.getLast?_nil, List.getLast?_singleton, lmStep]
        rw [if_pos (not_le.mp hxh)]
      | cons b bs =>
        rw [List.getLast?_cons_cons]

theorem getLastQ_insertionSort (l : List (ℚ × Nat)) :
    (List.insertionSort (fun a b => a.1 ≤ b.1) l).getLast? = lastMax l := by
  haveI : IsTotal (ℚ × Nat) (fun a b => a.1 ≤ b.1) := ⟨fun a b => le_total _ _⟩
  haveI : IsTrans (ℚ × Nat) (fun a b => a.1 ≤ b.1) :=
    ⟨fun a b c hab hbc => le_trans hab hbc⟩
  induction l with
  | nil => rfl
  | cons x xs ih =>
    simp only [List.insertionSort]
    rw [getLastQ_orderedInsert x _ (List.sorted_insertionSort _ _), ih]
    rfl

theorem play_eq_lastMax {β : Type} (p : MCPlayer β) (b : β) :
    p.play b = (lastMax (qsaList p b)).map Prod.snd := by
  simp only [MCPlayer.play]
  rw [List.head?_reverse, getLastQ_insertionSort]

/-! Assembly: the full pipeline of `play` under the contract of the
collaborators (probability priors, 0/1 legality mask of matching length, at
least one legal action, positive `K`). -/

theorem play_spec {β : Type} (p : MCPlayer β) (b : β)
    (hP : ∀ x ∈ (p.predict b).1, 0 ≤ x)
    (hv : ∀ x ∈ p.game.getValidMoves b, x = 0 ∨ x = 1)
    (hlen : (p.predict b).1.length = (p.game.getValidMoves b).length)
    (hone : (1 : ℚ) ∈ p.game.getValidMoves b)
    (hK : 1 ≤ p.args.mc_topk) :
    ∃ a, p.play b = some a ∧
      a ∈ topKActions (renormPs (p.predict b).1 (p.game.getValidMoves b))
          p.args.mc_topk ∧
      rolloutValue p b a = rolloutValue p b a ∧
      ∀ c ∈ topKActions (renormPs (p.predict b).1 (p.game.getValidMoves b))
          p.args.mc_topk, rolloutValue p b c ≤ rolloutValue p b a := by
  have hPnn : ∀ x ∈ renormPs (p.predict b).1 (p.game.getValidMoves b), 0 ≤ x :=
    renormPs_nonneg _ _ hP hv hlen
  have hnva : 0 < numValidActions (renormPs (p.predict b).1 (p.game.getValidMoves b)) :=
    renormPs_numValid_pos _ _ hP hv hlen hone
  have hclen : (topKActions (renormPs (p.predict b).1 (p.game.getValidMoves b))
      p.args.mc_topk).length =
      min p.args.mc_topk.toNat
        (numValidActions (renormPs (p.predict b).1 (p.game.getValidMoves b))) :=
    topKActions_length _ _ hK hnva
  have hcpos : 0 < (topKActions (renormPs (p.predict b).1 (p.game.getValidMoves b))
      p.args.mc_topk).length := by
    rw [hclen]
    omega
  have hqlen : (qsaList p b).length =
      (topKActions (renormPs (p.predict b).1 (p.game.getValidMoves b))
        p.args.mc_topk).length := by
    simp [qsaList]
  have hqne : qsaList p b ≠ [] := by
    intro hc
    rw [hc] at hqlen
    simp at hqlen
    omega
  cases hm : lastMax (qsaList p b) with
  | none =>
    rw [lastMax_eq_none_iff] at hm
    exact absurd hm hqne
  | some m =>
    have hmem : m ∈ qsaList p b := lastMax_mem _ _ hm
    have hmax : ∀ x ∈ qsaList p b, x.1 ≤ m.1 := lastMax_isMax _ _ hm
    simp only [qsaList, List.mem_map] at hmem
    obtain ⟨a, ha, hae⟩ := hmem
    refine ⟨a, ?_, ha, rfl, ?_⟩
    · rw [play_eq_lastMax, hm, ← hae]
      rfl
    · intro c hc
      have hcq : (rolloutValue p b c, c) ∈ qsaList p b := by
        simp only [qsaList, List.mem_map]
        exact ⟨c, hc, rfl⟩
      have := hmax _ hcq
      rw [← hae] at this
      exact this

theorem countP_le_of_getD (l1 l2 : List ℚ) (hlen : l1.length = l2.length)
    (h : ∀ i, i < l1.length → l1.getD i 0 ≠ 0 → l2.getD i 0 ≠ 0) :
    l1.countP (fun x => decide (x ≠ 0)) ≤ l2.countP (fun x => decide (x ≠ 0)) := by
  induction l1 generalizing l2 with
  | nil => simp
  | cons a t ih =>
    cases l2 with
    | nil => simp at hlen
    | cons c t2 =>
      have hlen2 : t.length = t2.length := by simpa using hlen
      have hac : a ≠ 0 → c ≠ 0 := by
        intro ha
        have := h 0 (by simp) (by simpa using ha)
        simpa using this
      have ht : ∀ i, i < t.length → t.getD i 0 ≠ 0 → t2.getD i 0 ≠ 0 := by
        intro i hi hne
        have := h (i + 1) (by simp; omega) (by simpa using hne)
        simpa using this
      have hrec := ih t2 hlen2 ht
      rw [List.countP_cons, List.countP_cons]
      have hstep : (if (fun x => decide (x ≠ 0)) a = true then 1 else 0) ≤
          (if (fun x => decide (x ≠ 0)) c = true then 1 else 0) := by
        by_cases ha : a = 0
        · simp [ha]
        · simp [ha, hac ha]
      exact Nat.add_le_add hrec hstep

/-! The claims. -/

/-- Claim C1: for every board position whose legality mask marks at least
one action legal, under the collaborator contract (probability priors,
0/1 legality mask of matching length) and a positive breadth `K`, the
action identifier returned by `MonteCarloBasedPlayer.play` is an action the
mask marks legal.  The one-hot mass placed on it by `getActionProb` is the
subject of claim C7. -/
theorem claim1_play_returns_legal {β : Type} (p : MCPlayer β) (b : β)
    (hP : ∀ x ∈ (p.predict b).1, 0 ≤ x)
    (hv : ∀ x ∈ p.game.getValidMoves b, x = 0 ∨ x = 1)
    (hlen : (p.predict b).1.length = (p.game.getValidMoves b).length)
    (hone : (1 : ℚ) ∈ p.game.getValidMoves b)
    (hK : 1 ≤ p.args.mc_topk) :
    ∃ a, p.play b = some a ∧ (p.game.getValidMoves b).getD a 0 = 1 := by
  obtain ⟨a, hplay, hmem, -, -⟩ := play_spec p b hP hv hlen hone hK
  have hnva := renormPs_numValid_pos _ _ hP hv hlen hone
  have hne := topKActions_nonzero _ _ hK (renormPs_nonneg _ _ hP hv hlen) hnva a hmem
  exact ⟨a, hplay, renormPs_support_legal _ _ hP hv hlen a hne⟩

/-- Witness for claim C1: the concrete player `pw1` on board 0 (legality
mask `[1, 1, 0, 1]`). -/
theorem claim1_witness :
    ∃ a, MCPlayer.play pw1 0 = some a ∧ (pw1.game.getValidMoves 0).getD a 0 = 1 :=
  claim1_play_returns_legal pw1 0 (by norm_num [pw1]) (by norm_num [pw1, gameW])
    (by norm_num [pw1, gameW]) (by norm_num [pw1, gameW]) (by norm_num [pw1])

/-- Claim C2: when the masked prior collapses to all-zero while at least one
action is legal, the fallback distribution is uniform over exactly the legal
actions (one over the number of legal actions on legal slots, zero on
illegal slots) and sums to exactly 1 in exact arithmetic; the computation
produces this distribution instead of aborting.  The accompanying
`log.error` call is an effect outside the embedding. -/
theorem claim2_fallback_uniform (Ps valids : List ℚ)
    (hP : ∀ x ∈ Ps, 0 ≤ x) (hv : ∀ x ∈ valids, x = 0 ∨ x = 1)
    (hlen : Ps.length = valids.length) (hone : (1 : ℚ) ∈ valids)
    (hzero : (maskPs Ps valids).sum = 0) :
    (renormPs Ps valids).length = valids.length ∧
    (∀ i, valids.getD i 0 = 1 →
      (renormPs Ps valids).getD i 0 = 1 / (numValidActions valids : ℚ)) ∧
    (∀ i, valids.getD i 0 = 0 → (renormPs Ps valids).getD i 0 = 0) ∧
    (renormPs Ps valids).sum = 1 := by
  have hsum : ¬ 0 < (maskPs Ps valids).sum := by
    rw [hzero]
    exact lt_irrefl 0
  have hs1 : (1 : ℚ) ≤ valids.sum := by
    apply List.single_le_sum _ _ hone
    intro z hz
    rcases hv z hz with h | h <;> simp [h]
  have hsne : valids.sum ≠ 0 := by linarith
  refine ⟨length_renormPs Ps valids hlen, ?_, ?_, ?_⟩
  · intro i hi
    rw [getD_renormPs_zero Ps valids hP hv hlen hsum, hi,
      binary_sum_eq_countP valids hv]
    rfl
  · intro i hi
    rw [getD_renormPs_zero Ps valids hP hv hlen hsum, hi]
    simp
  · rw [renormPs_zero_eq Ps valids hP hv hlen hsum, sum_map_div]
    exact div_self hsne

/-- Witness for claim C2: the documented scenario, an all-masked-to-zero
prior of length 4 against the legality mask `[1, 1, 0, 1]` yields the
fallback `[1/3, 1/3, 0, 1/3]`, which sums to 1. -/
theorem claim2_witness :
    renormPs [0, 0, 1, 0] [1, 1, 0, 1] = [1 / 3, 1 / 3, 0, 1 / 3] ∧
    (renormPs [(0 : ℚ), 0, 1, 0] [1, 1, 0, 1]).sum = 1 := by
  constructor
  · norm_num [renormPs, maskPs]
  · exact (claim2_fallback_uniform [0, 0, 1, 0] [1, 1, 0, 1]
      (by norm_num) (by norm_num) (by norm_num) (by norm_num)
      (by norm_num [maskPs])).2.2.2

/-- Counterexample to claim C3: the code narrows candidates by the number of
NONZERO renormalised prior entries (`np.nonzero(Ps)`), not by the number of
legal actions.  With legality mask `[1, 1, 1, 1]` (4 legal actions, so at
least `K = 3` are legal) and prior `[1/2, 1/2, 0, 0]`, the claim requires
the top `K = 3` actions as candidates, but the code scores only 2. -/
theorem claim3_cex :
    numValidActions [(1 : ℚ), 1, 1, 1] = 4 ∧
    (topKActions (renormPs [(1 : ℚ) / 2, 1 / 2, 0, 0] [1, 1, 1, 1]) 3).length = 2 ∧
    (topKActions (renormPs [(1 : ℚ) / 2, 1 / 2, 0, 0] [1, 1, 1, 1]) 3).length ≠ 3 := by
  norm_num [topKActions, renormPs, maskPs, numValidActions, argsortAsc, pyTail,
    List.insertionSort, List.orderedInsert, List.countP, List.countP.go]
  omega

/-- Claim C3 as amended: the candidate set is governed by the support of the
renormalised prior, not by the legality mask.  Writing `nva` for the number
of nonzero renormalised prior entries, the candidate list has exactly
`min K nva` distinct entries, all with nonzero renormalised prior; every
non-candidate action has renormalised prior at most that of any candidate
(so for `nva < K` the candidates are exactly the support, and otherwise a
top-`K` set); and since the support only contains legal actions, the number
of candidates still never exceeds `min K (number of legal actions)` — the
bound stated by the original claim.  When every legal action has nonzero
masked prior (in particular in the fallback case), `nva` equals the number
of legal actions and the original claim holds. -/
theorem claim3_amended (Ps valids : List ℚ) (K : Int)
    (hP : ∀ x ∈ Ps, 0 ≤ x) (hv : ∀ x ∈ valids, x = 0 ∨ x = 1)
    (hlen : Ps.length = valids.length) (hone : (1 : ℚ) ∈ valids)
    (hK : 1 ≤ K) :
    (topKActions (renormPs Ps valids) K).length =
      min K.toNat (numValidActions (renormPs Ps valids)) ∧
    (topKActions (renormPs Ps valids) K).Nodup ∧
    (∀ i ∈ topKActions (renormPs Ps valids) K,
      (renormPs Ps valids).getD i 0 ≠ 0 ∧ valids.getD i 0 = 1 ∧ i < valids.length) ∧
    (∀ i ∈ topKActions (renormPs Ps valids) K, ∀ j, j < valids.length →
      j ∉ topKActions (renormPs Ps valids) K →
      (renormPs Ps valids).getD j 0 ≤ (renormPs Ps valids).getD i 0) ∧
    numValidActions (renormPs Ps valids) ≤ numValidActions valids ∧
    (topKActions (renormPs Ps valids) K).length ≤
      min K.toNat (numValidActions valids) := by
  have hPnn := renormPs_nonneg _ _ hP hv hlen
  have hnva := renormPs_numValid_pos _ _ hP hv hlen hone
  have hrlen := length_renormPs Ps valids hlen
  have hsupp : numValidActions (renormPs Ps valids) ≤ numValidActions valids := by
    unfold numValidActions
    apply countP_le_of_getD _ _ hrlen
    intro i hi hne
    rw [renormPs_support_legal _ _ hP hv hlen i hne]
    exact one_ne_zero
  refine ⟨topKActions_length _ _ hK hnva, topKActions_nodup _ _ hK hnva, ?_, ?_, hsupp, ?_⟩
  · intro i hi
    refine ⟨topKActions_nonzero _ _ hK hPnn hnva i hi, ?_, ?_⟩
    · exact renormPs_support_legal _ _ hP hv hlen i
        (topKActions_nonzero _ _ hK hPnn hnva i hi)
    · have := topKActions_mem_lt _ _ hK hnva i hi
      omega
  · intro i hi j hj hjn
    exact topKActions_dominant _ _ hK hnva i hi j (by omega) hjn
  · rw [topKActions_length _ _ hK hnva]
    omega

/-- Witness for the amended claim C3 at the scenario of the original claim
(board with exactly 2 legal actions, both with positive prior, `K = 3`):
both legal actions become candidates. -/
theorem claim3_witness :
    (topKActions (renormPs [(1 : ℚ) / 2, 1 / 2, 0, 0] [1, 1, 0, 0]) 3).length =
      min (3 : Int).toNat
        (numValidActions (renormPs [(1 : ℚ) / 2, 1 / 2, 0, 0] [1, 1, 0, 0])) ∧
    numValidActions (renormPs [(1 : ℚ) / 2, 1 / 2, 0, 0] [1, 1, 0, 0]) = 2 :=
  ⟨(claim3_amended [(1 : ℚ) / 2, 1 / 2, 0, 0] [1, 1, 0, 0] 3
      (by norm_num) (by norm_num) (by norm_num) (by norm_num) (by norm_num)).1,
    by norm_num [renormPs, maskPs, numValidActions, List.countP, List.countP.go]⟩

/-- Claim C4: each candidate is scored by advancing the board one ply,
canonicalising, running exactly `args.numMCsims` simulations from that state
and averaging the outcomes; `play` returns a candidate whose average outcome
is maximal among the candidates. -/
theorem claim4_play_selects_max {β : Type} (p : MCPlayer β) (b : β)
    (hP : ∀ x ∈ (p.predict b).1, 0 ≤ x)
    (hv : ∀ x ∈ p.game.getValidMoves b, x = 0 ∨ x = 1)
    (hlen : (p.predict b).1.length = (p.game.getValidMoves b).length)
    (hone : (1 : ℚ) ∈ p.game.getValidMoves b)
    (hK : 1 ≤ p.args.mc_topk)
    (hsims : 1 ≤ p.args.numMCsims) :
    (∀ c : Nat, rolloutValue p b c =
      ((List.range p.args.numMCsims).map (fun r =>
        p.simulate (p.game.getCanonicalForm (p.game.getNextState b 1 c).1
          (p.game.getNextState b 1 c).2) r)).sum / (p.args.numMCsims : ℚ)) ∧
    ∃ a, p.play b = some a ∧
      a ∈ topKActions (renormPs (p.predict b).1 (p.game.getValidMoves b))
        p.args.mc_topk ∧
      ∀ c ∈ topKActions (renormPs (p.predict b).1 (p.game.getValidMoves b))
        p.args.mc_topk, rolloutValue p b c ≤ rolloutValue p b a := by
  constructor
  · intro c
    simp [rolloutValue]
  · obtain ⟨a, hplay, hmem, -, hmax⟩ := play_spec p b hP hv hlen hone hK
    exact ⟨a, hplay, hmem, hmax⟩

/-- Witness for claim C4: the player `pw4` with a stub simulator mapping the
state reached under action `a` to the fixed outcome `a`; `play`
deterministically returns candidate 3, the one with the highest mapped
value. -/
theorem claim4_witness :
    (∃ a, MCPlayer.play pw4 1 = some a ∧
      a ∈ topKActions (renormPs (pw4.predict 1).1 (pw4.game.getValidMoves 1))
        pw4.args.mc_topk ∧
      ∀ c ∈ topKActions (renormPs (pw4.predict 1).1 (pw4.game.getValidMoves 1))
        pw4.args.mc_topk, rolloutValue pw4 1 c ≤ rolloutValue pw4 1 a) ∧
    MCPlayer.play pw4 1 = some 3 := by
  constructor
  · exact (claim4_play_selects_max pw4 1 (by norm_num [pw4]) (by norm_num [pw4, gameW])
      (by norm_num [pw4, gameW]) (by norm_num [pw4, gameW]) (by norm_num [pw4])
      (by norm_num [pw4])).2
  · norm_num [MCPlayer.play, qsaList, topKActions, renormPs, maskPs, numValidActions,
      argsortAsc, pyTail, rolloutValue, pw4, gameW, List.insertionSort,
      List.orderedInsert, List.countP, List.countP.go]

/-- Counterexample to claim C5: with two candidates tied at the exact
maximal average rollout value, `play` returns the candidate encountered
LAST in candidate order, not the first.  For `pTie` the candidate order is
`[0, 1]`, both average to 0, and `play` returns action 1. -/
theorem claim5_cex :
    qsaList pTie 1 = [(0, 0), (0, 1)] ∧
    rolloutValue pTie 1 0 = rolloutValue pTie 1 1 ∧
    MCPlayer.play pTie 1 = some 1 ∧
    MCPlayer.play pTie 1 ≠ some 0 := by
  norm_num [MCPlayer.play, qsaList, topKActions, renormPs, maskPs, numValidActions,
    argsortAsc, pyTail, rolloutValue, pTie, gameW, List.insertionSort,
    List.orderedInsert, List.countP, List.countP.go]
  have h : 4 - Int.toNat 2 = 2 := by omega
  rw [h]
  norm_num

/-- Claim C5 as amended: the tie-break is deterministic, but among
candidates with exactly equal maximal average rollout value the returned
action is the one encountered last in candidate order (the stable ascending
sort keeps exact ties in insertion order, and the subsequent `reverse` puts
the last-inserted tied maximum at position 0).  Formally: the pair `m`
selected from `self.qsa` is maximal, and every pair after it in `self.qsa`
is strictly smaller. -/
theorem claim5_amended {β : Type} (p : MCPlayer β) (b : β)
    (hP : ∀ x ∈ (p.predict b).1, 0 ≤ x)
    (hv : ∀ x ∈ p.game.getValidMoves b, x = 0 ∨ x = 1)
    (hlen : (p.predict b).1.length = (p.game.getValidMoves b).length)
    (hone : (1 : ℚ) ∈ p.game.getValidMoves b)
    (hK : 1 ≤ p.args.mc_topk) :
    ∃ m l₁ l₂, p.play b = some m.2 ∧
      qsaList p b = l₁ ++ m :: l₂ ∧
      (∀ x ∈ qsaList p b, x.1 ≤ m.1) ∧
      (∀ x ∈ l₂, x.1 < m.1) := by
  obtain ⟨a, hplay, -, -, -⟩ := play_spec p b hP hv hlen hone hK
  cases hm : lastMax (qsaList p b) with
  | none =>
    rw [play_eq_lastMax, hm] at hplay
    cases hplay
  | some m =>
    obtain ⟨l₁, l₂, heq, hlt⟩ := lastMax_split _ _ hm
    refine ⟨m, l₁, l₂, ?_, heq, lastMax_isMax _ _ hm, hlt⟩
    rw [play_eq_lastMax, hm]
    rfl

/-- Witness for the amended claim C5 at `pTie`, whose two candidates tie. -/
theorem claim5_witness :
    ∃ m l₁ l₂, MCPlayer.play pTie 1 = some (Prod.snd m) ∧
      qsaList pTie 1 = l₁ ++ m :: l₂ ∧
      (∀ x ∈ qsaList pTie 1, x.1 ≤ m.1) ∧
      (∀ x ∈ l₂, x.1 < m.1) :=
  claim5_amended pTie 1 (by norm_num [pTie]) (by norm_num [pTie, gameW])
    (by norm_num [pTie, gameW]) (by norm_num [pTie, gameW]) (by norm_num [pTie])

/-- Claim C6: on a terminal position (`getGameEnded` nonzero),
`getActionProb` returns the all-zero vector of length equal to the
action-space size, and the result involves no prior computation, narrowing
or rollouts: it is unchanged under any replacement of the predictor, the
simulator and the configuration (any player sharing the same rules
provider). -/
theorem claim6_terminal_zero {β : Type} (p : MCPlayer β) (b : β)
    (hterm : p.game.getGameEnded b 1 ≠ 0) :
    p.getActionProb b = some (List.replicate p.game.getActionSize 0) ∧
    (List.replicate p.game.getActionSize (0 : ℚ)).length = p.game.getActionSize ∧
    (∀ x ∈ List.replicate p.game.getActionSize (0 : ℚ), x = 0) ∧
    ∀ q : MCPlayer β, q.game = p.game → q.getActionProb b = p.getActionProb b := by
  have h1 : p.getActionProb b = some (List.replicate p.game.getActionSize 0) := by
    unfold MCPlayer.getActionProb
    rw [if_pos hterm]
  refine ⟨h1, by simp, fun x hx => List.eq_of_mem_replicate hx, ?_⟩
  intro q hq
  have hterm2 : q.game.getGameEnded b 1 ≠ 0 := by
    rw [hq]
    exact hterm
  have h2 : q.getActionProb b = some (List.replicate q.game.getActionSize 0) := by
    unfold MCPlayer.getActionProb
    rw [if_pos hterm2]
  rw [h1, h2, hq]

/-- Witness for claim C6: board 99 of the concrete rules provider is
terminal and `getActionProb` yields the all-zero vector there. -/
theorem claim6_witness :
    pw1.game.getGameEnded 99 1 ≠ 0 ∧
    MCPlayer.getActionProb pw1 99 = some (List.replicate pw1.game.getActionSize 0) :=
  ⟨by norm_num [pw1, gameW],
    (claim6_terminal_zero pw1 99 (by norm_num [pw1, gameW])).1⟩

/-- Claim C7: on a non-terminal position (under the collaborator contract),
`getActionProb` returns a one-hot vector over the full action space: length
equal to the action-space size, value 1 at the action selected by `play`,
and 0 everywhere else. -/
theorem claim7_one_hot {β : Type} (p : MCPlayer β) (b : β)
    (hnt : p.game.getGameEnded b 1 = 0)
    (hP : ∀ x ∈ (p.predict b).1, 0 ≤ x)
    (hv : ∀ x ∈ p.game.getValidMoves b, x = 0 ∨ x = 1)
    (hlen : (p.predict b).1.length = (p.game.getValidMoves b).length)
    (hone : (1 : ℚ) ∈ p.game.getValidMoves b)
    (hK : 1 ≤ p.args.mc_topk)
    (hact : (p.game.getValidMoves b).length = p.game.getActionSize) :
    ∃ a l, p.play b = some a ∧ p.getActionProb b = some l ∧
      a < p.game.getActionSize ∧ l.length = p.game.getActionSize ∧
      l.getD a 0 = 1 ∧ ∀ j, j ≠ a → l.getD j 0 = 0 := by
  obtain ⟨a, hplay, hmem, -, -⟩ := play_spec p b hP hv hlen hone hK
  have hnva := renormPs_numValid_pos _ _ hP hv hlen hone
  have halt : a < p.game.getActionSize := by
    have h := topKActions_mem_lt _ _ hK hnva a hmem
    rw [length_renormPs _ _ hlen, hact] at h
    exact h
  refine ⟨a, (List.replicate p.game.getActionSize 0).set a 1, hplay, ?_, halt, ?_, ?_, ?_⟩
  · unfold MCPlayer.getActionProb
    rw [if_neg (by simp [hnt]), hplay]
    rfl
  · simp
  · have hl : a < ((List.replicate p.game.getActionSize (0 : ℚ)).set a 1).length := by
      simpa using halt
    rw [List.getD_eq_getElem _ _ hl]
    simp
  · intro j hj
    by_cases hjlt : j < p.game.getActionSize
    · have hl : j < ((List.replicate p.game.getActionSize (0 : ℚ)).set a 1).length := by
        simpa using hjlt
      rw [List.getD_eq_getElem _ _ hl, List.getElem_set_ne (by omega)]
      simp
    · apply List.getD_eq_default
      simpa using le_of_not_lt hjlt

/-- Witness for claim C7: on the non-terminal board 0, `pw1` yields the
one-hot vector over the 4 actions at the action chosen by `play`. -/
theorem claim7_witness :
    ∃ a l, MCPlayer.play pw1 0 = some a ∧ MCPlayer.getActionProb pw1 0 = some l ∧
      a < pw1.game.getActionSize ∧ l.length = pw1.game.getActionSize ∧
      l.getD a 0 = 1 ∧ ∀ j, j ≠ a → l.getD j 0 = 0 :=
  claim7_one_hot pw1 0 (by norm_num [pw1, gameW]) (by norm_num [pw1])
    (by norm_num [pw1, gameW]) (by norm_num [pw1, gameW]) (by norm_num [pw1, gameW])
    (by norm_num [pw1]) (by norm_num [pw1, gameW])

/-- Counterexample to claim C8: `play` assigns the attribute `self.qsa`,
which is not set at construction, and the assigned list persists after the
call returns: the post-call object state differs from the pre-call state in
that field. -/
theorem claim8_cex :
    (playS { core := pTie, qsa := none } 1).2.qsa ≠
      ({ core := pTie, qsa := none } : MCPlayerState Nat).qsa := by
  simp [playS]

/-- Claim C8 as amended: `play` does write one piece of object state, the
scratch attribute `self.qsa`, which persists between invocations; but it is
reset at the start of every call and never read before the reset, so the
returned action and the post-call state are independent of the incoming
`qsa` value, and the fields set at construction are never modified. -/
theorem claim8_amended {β : Type} (c : MCPlayer β) (q1 q2 : Option (List (ℚ × Nat)))
    (b : β) :
    (playS { core := c, qsa := q1 } b).1 = (playS { core := c, qsa := q2 } b).1 ∧
    (playS { core := c, qsa := q1 } b).2 = (playS { core := c, qsa := q2 } b).2 ∧
    (playS { core := c, qsa := q1 } b).2.core = c ∧
    (playS { core := c, qsa := q1 } b).2.qsa = some (qsaList c b) :=
  ⟨rfl, rfl, rfl, rfl⟩

/-- Counterexample to claim C9: the selector performs no validation at all.
With `K = args.mc_topk = 0` the slice `[-K:]` is the whole argpartition
output, so every action of the action space (legal or not) becomes a
candidate, and `play` returns normally instead of failing fast — here it
even returns the illegal action 2, which the simulator happens to favour. -/
theorem claim9_cex :
    pK0.args.mc_topk = 0 ∧
    (pK0.game.getValidMoves 0).getD 2 0 = 0 ∧
    MCPlayer.play pK0 0 = some 2 := by
  refine ⟨rfl, by norm_num [pK0, gameW], ?_⟩
  norm_num [MCPlayer.play, qsaList, topKActions, renormPs, maskPs, numValidActions,
    argsortAsc, pyTail, rolloutValue, pK0, gameW, List.insertionSort,
    List.orderedInsert, List.countP, List.countP.go]

/-- Claim C9 as amended: malformed configuration is silently tolerated, not
rejected.  With `K = 0` the candidate list is the entire argpartition output
(every action of the action space), the scored list covers the whole action
space, and `play` succeeds whenever the action space is nonempty.  Wrong
shapes are likewise unchecked (the elementwise mask simply pairs entries up
to the shorter operand, as numpy broadcasting does for a compatible shape). -/
theorem claim9_amended {β : Type} (p : MCPlayer β) (b : β)
    (h0 : p.args.mc_topk = 0)
    (hlen : (p.predict b).1.length = (p.game.getValidMoves b).length)
    (hn : 0 < (p.game.getValidMoves b).length) :
    topKActions (renormPs (p.predict b).1 (p.game.getValidMoves b)) p.args.mc_topk =
      argsortAsc (renormPs (p.predict b).1 (p.game.getValidMoves b)) ∧
    (qsaList p b).length = (p.game.getValidMoves b).length ∧
    ∃ a, p.play b = some a := by
  have htop : ∀ L : List ℚ, topKActions L 0 = argsortAsc L := by
    intro L
    unfold topKActions
    rw [if_neg (by omega : ¬ (numValidActions L : Int) < 0)]
    unfold pyTail
    rw [if_pos (by omega : (0 : Int) ≤ -0)]
    simp
  have hqlen : (qsaList p b).length = (p.game.getValidMoves b).length := by
    simp only [qsaList, List.length_map, h0, htop]
    rw [argsortAsc_length, length_renormPs _ _ hlen]
  refine ⟨by rw [h0]; exact htop _, hqlen, ?_⟩
  have hqne : qsaList p b ≠ [] := by
    intro hc
    rw [hc] at hqlen
    simp at hqlen
    omega
  cases hm : lastMax (qsaList p b) with
  | none => exact absurd ((lastMax_eq_none_iff _).mp hm) hqne
  | some m =>
    refine ⟨m.2, ?_⟩
    rw [play_eq_lastMax, hm]
    rfl

/-- Witness for the amended claim C9 at the concrete player `pK0`. -/
theorem claim9_witness :
    topKActions (renormPs (pK0.predict 0).1 (pK0.game.getValidMoves 0))
        pK0.args.mc_topk =
      argsortAsc (renormPs (pK0.predict 0).1 (pK0.game.getValidMoves 0)) ∧
    (qsaList pK0 0).length = (pK0.game.getValidMoves 0).length ∧
    ∃ a, MCPlayer.play pK0 0 = some a :=
  claim9_amended pK0 0 rfl (by norm_num [pK0, gameW]) (by norm_num [pK0, gameW])

end MCSel

namespace RSM

/-- Claim C10: for every 2-D tensor `h`, the representational similarity
matrix `ex_net_rsm h = h * h.transpose` is square with side equal to the
number of rows of `h` (its type is `Matrix (Fin m) (Fin m) ℚ` for
`h : Matrix (Fin m) (Fin n) ℚ`) and is symmetric: it equals its own
transpose, entrywise `(h * h.transpose) i j = (h * h.transpose) j i`. -/
theorem claim10_rsm_symmetric {m n : Nat} (h : Matrix (Fin m) (Fin n) ℚ) :
    (ex_net_rsm h).transpose = ex_net_rsm h ∧
    ∀ i j, ex_net_rsm h i j = ex_net_rsm h j i := by
  have ht : (ex_net_rsm h).transpose = ex_net_rsm h := by
    unfold ex_net_rsm
    rw [Matrix.transpose_mul, Matrix.transpose_transpose]
  refine ⟨ht, fun i j => ?_⟩
  conv_lhs => rw [← ht]
  rfl

end RSM
